import Mathlib

/-!
# A verification development for the go-argmapper resolution engine

This file gives a shallow embedding, in Lean 4, of the parts of the
go-argmapper dependency-injection library that its specification talks
about, and settles a list of claims about that specification against the
embedded code.

The embedding follows the Go sources:

* the weighted directed graph (`internal/graph`): adjacency maps keyed by
  vertex hash codes, with `Add`, `AddEdge`, `AddEdgeWeighted`, `Remove`,
  `RemoveEdge`, `OutEdges`, `InEdges`, `Reverse`, `Copy`;
* the vertex taxonomy of `graph.go` (`rootVertex`, `valueVertex`,
  `typedArgVertex`, `typedOutputVertex`, `funcVertex`) with the hash
  identities computed by their `Hashcode` methods;
* `Result` (`result.go`): ordered outputs plus a build error, with
  `Err`, `Out`, `Len` and the trailing-error convention;
* `Func.callDirect`, `Func.reachTarget` and the pruning step of
  `Func.Call` (`call.go`), together with `Func.outputValues` (`func.go`);
* the argument-ingress lowercasing of `Named` (`args.go`) and
  `newValueSetFromStruct` (`value_set.go`).

Go maps are embedded as association lists (`alookup`/`aset`/`adel`); a
Go `nil` inner map shows up as an absent key of the outer list, so that
writing through it — a Go panic — can be modelled as `Option.none`.
Go `reflect.Value`/`reflect.Type` are embedded as the closed inductive
types `RVal`/`GoType`; `strings.ToLower` is embedded as `String.toLower`
(they agree on ASCII names, the only ones the claims use).
-/

set_option maxHeartbeats 1000000

namespace ArgMapper

/-! ## Association lists standing in for Go maps -/

/-- First-match association lookup: the embedding of reading a Go map. -/
def alookup {α β : Type} [DecidableEq α] : List (α × β) → α → Option β
  | [], _ => none
  | (k, b) :: rest, k' => if k = k' then some b else alookup rest k'

/-- Insert-or-replace: the embedding of writing a Go map entry. -/
def aset {α β : Type} [DecidableEq α] : List (α × β) → α → β → List (α × β)
  | [], k, b => [(k, b)]
  | (k', b') :: rest, k, b =>
      if k' = k then (k, b) :: rest else (k', b') :: aset rest k b

/-- Delete a key: the embedding of Go `delete` on a map. -/
def adel {α β : Type} [DecidableEq α] : List (α × β) → α → List (α × β)
  | [], _ => []
  | (k', b') :: rest, k =>
      if k' = k then adel rest k else (k', b') :: adel rest k

theorem alookup_aset_self {α β : Type} [DecidableEq α] (l : List (α × β)) (k : α) (b : β) :
    alookup (aset l k b) k = some b := by
  induction l with
  | nil => simp [aset, alookup]
  | cons p rest ih =>
      by_cases h : p.1 = k
      · simp [aset, h, alookup]
      · simp [aset, h, alookup, ih]

theorem alookup_aset_ne {α β : Type} [DecidableEq α] (l : List (α × β)) (k k' : α) (b : β)
    (h : k ≠ k') : alookup (aset l k b) k' = alookup l k' := by
  induction l with
  | nil => simp [aset, alookup, h]
  | cons p rest ih =>
      by_cases hp : p.1 = k
      · simp [aset, hp, alookup, h]
      · simp [aset, hp, alookup, ih]

theorem alookup_adel_self {α β : Type} [DecidableEq α] (l : List (α × β)) (k : α) :
    alookup (adel l k) k = none := by
  induction l with
  | nil => simp [adel, alookup]
  | cons p rest ih =>
      obtain ⟨a, b⟩ := p
      by_cases hp : a = k
      · simpa [adel, hp] using ih
      · simpa [adel, hp, alookup] using ih

theorem alookup_adel_ne {α β : Type} [DecidableEq α] (l : List (α × β)) (k k' : α)
    (h : k ≠ k') : alookup (adel l k) k' = alookup l k' := by
  induction l with
  | nil => simp [adel, alookup]
  | cons p rest ih =>
      obtain ⟨a, b⟩ := p
      by_cases hp : a = k
      · subst hp
        have hrhs : alookup ((a, b) :: rest) k' = alookup rest k' := by
          simp [alookup, h]
        rw [hrhs]
        simpa [adel] using ih
      · by_cases hq : a = k'
        · subst hq
          simp [adel, hp, alookup]
        · simpa [adel, hp, alookup, hq] using ih

theorem alookup_mem {α β : Type} [DecidableEq α] {l : List (α × β)} {k : α} {b : β}
    (h : alookup l k = some b) : (k, b) ∈ l := by
  induction l with
  | nil => simp [alookup] at h
  | cons p rest ih =>
      obtain ⟨a, b'⟩ := p
      by_cases hp : a = k
      · subst hp
        simp [alookup] at h
        subst h
        exact List.mem_cons_self _ _
      · simp [alookup, hp] at h
        exact List.mem_cons_of_mem _ (ih h)

/-! ## The Go value and type model -/

/-- Embedding of the `reflect.Type`s that occur in the claims; `tErr` is
the distinguished `error` type (`errType` in the sources). -/
inductive GoType : Type
  | tInt
  | tBool
  | tString
  | tErr
  | tOther (n : Nat)
deriving DecidableEq, Repr

/-- Rendering used by `reflect.Type.String()` in error messages. -/
def GoType.render : GoType → String
  | .tInt => "int"
  | .tBool => "bool"
  | .tString => "string"
  | .tErr => "error"
  | .tOther n => "other" ++ toString n

/-- Aggregated error value: `go-multierror` flattened to its messages.
A plain (single) error is a one-element aggregate. -/
abbrev GoErr := List String

/-- Embedding of `reflect.Value`: either the invalid (zero) `reflect.Value`
or a typed value.  An `errV none` is a typed `nil` error. -/
inductive RVal : Type
  | invalid
  | intV (n : Int)
  | boolV (b : Bool)
  | strV (s : String)
  | errV (e : Option GoErr)
  | otherV (ty : Nat) (data : Nat)
deriving DecidableEq, Repr

/-- `reflect.Value.IsValid`. -/
def RVal.isValid : RVal → Bool
  | .invalid => false
  | _ => true

/-- `reflect.Value.Type()`; the invalid value has no type. -/
def RVal.tyOf : RVal → Option GoType
  | .invalid => none
  | .intV _ => some .tInt
  | .boolV _ => some .tBool
  | .strV _ => some .tString
  | .errV _ => some .tErr
  | .otherV t _ => some (.tOther t)

/-! ## Vertices and their hash identities (`graph.go`) -/

/-- The five vertex kinds of the resolution graph.  `value` is the
`valueVertex` (a named value), `func` carries the identity of the
underlying function. -/
inductive Vertex : Type
  | root
  | value (name : String) (ty : GoType) (subtype : String) (val : RVal)
  | typedArg (name : String) (ty : GoType) (subtype : String) (val : RVal)
  | typedOutput (name : String) (ty : GoType) (subtype : String) (val : RVal)
  | func (fid : Nat)
deriving DecidableEq, Repr

/-- Hash identities.  The sources build these as strings
(`"Name/Type/Subtype"`, `"arg: Type/Subtype"`, `"out: Type/Subtype"`,
the function signature for `funcVertex`, the singleton pointer for
`rootVertex`); the constructors below mirror exactly which fields enter
each identity. -/
inductive VertexId : Type
  | root
  | value (name : String) (ty : GoType) (subtype : String)
  | typedArg (ty : GoType) (subtype : String)
  | typedOutput (ty : GoType) (subtype : String)
  | func (fid : Nat)
deriving DecidableEq, Repr

/-- `hashcode` from `internal/graph/vertex.go` composed with the
`Hashcode()` methods of `graph.go`: the `Value` payload of a vertex and
the `Name` of typed arg/output vertices are *not* part of the identity. -/
def hashcode : Vertex → VertexId
  | .root => .root
  | .value n ty st _ => .value n ty st
  | .typedArg _ ty st _ => .typedArg ty st
  | .typedOutput _ ty st _ => .typedOutput ty st
  | .func fid => .func fid

/-- The `Value` payload carried by a vertex (invalid where there is none). -/
def Vertex.valOf : Vertex → RVal
  | .root => .invalid
  | .value _ _ _ v => v
  | .typedArg _ _ _ v => v
  | .typedOutput _ _ _ v => v
  | .func _ => .invalid

/-! ## The weighted graph (`Graph` of the internal graph package) -/

/-- Edge weight constants from `graph.go`. -/
def weightNormal : Int := 1

def weightTyped : Int := 5

def weightMatchingName : Int := -1

/-- The graph structure: two adjacency maps (out and in) of weighted
edges keyed by hash code, and the hash-to-vertex table.  An absent key of
an adjacency map corresponds to a Go `nil` inner map. -/
structure Graph : Type where
  adjacencyOut : List (VertexId × List (VertexId × Int))
  adjacencyIn : List (VertexId × List (VertexId × Int))
  hash : List (VertexId × Vertex)
deriving DecidableEq, Repr

namespace Graph

/-- The empty graph (a zero `Graph` after `init`). -/
def empty : Graph := ⟨[], [], []⟩

/-- `Graph.Add`: register the vertex under its hash code unless the code
is already present; the Go method returns its argument `v` either way. -/
def add (g : Graph) (v : Vertex) : Graph × Vertex :=
  match alookup g.adjacencyOut (hashcode v) with
  | some _ => (g, v)
  | none =>
      ({ adjacencyOut := aset g.adjacencyOut (hashcode v) []
         adjacencyIn := aset g.adjacencyIn (hashcode v) []
         hash := aset g.hash (hashcode v) v }, v)

/-- `Graph.AddEdgeWeighted`.  Faithful to the Go body including its early
return when the `(h1, h2)` out-entry already exists.  Writing through an
absent (`nil`) inner map is a Go panic, embedded as `none`. -/
def addEdgeWeighted (g : Graph) (v1 v2 : Vertex) (w : Int) : Option Graph :=
  match alookup g.adjacencyOut (hashcode v1) with
  | none => none
  | some outMap =>
      if (alookup outMap (hashcode v2)).isSome then some g
      else
        match alookup g.adjacencyIn (hashcode v2) with
        | none => none
        | some inMap =>
            some { g with
              adjacencyOut :=
                aset g.adjacencyOut (hashcode v1) (aset outMap (hashcode v2) w)
              adjacencyIn :=
                aset g.adjacencyIn (hashcode v2) (aset inMap (hashcode v1) w) }

/-- `Graph.AddEdge` delegates to `AddEdgeWeighted` with weight 0. -/
def addEdge (g : Graph) (v1 v2 : Vertex) : Option Graph :=
  g.addEdgeWeighted v1 v2 0

/-- `Graph.RemoveEdge`. -/
def removeEdge (g : Graph) (v1 v2 : Vertex) : Graph :=
  let h1 := hashcode v1
  let h2 := hashcode v2
  { g with
    adjacencyOut :=
      match alookup g.adjacencyOut h1 with
      | none => g.adjacencyOut
      | some m => aset g.adjacencyOut h1 (adel m h2)
    adjacencyIn :=
      match alookup g.adjacencyIn h2 with
      | none => g.adjacencyIn
      | some m => aset g.adjacencyIn h2 (adel m h1) }

/-- `Graph.Remove`: drop a vertex and all incident edges.  Go `delete` on
an absent / `nil` map is a no-op, hence the `none` fallthroughs. -/
def removeId (g : Graph) (h : VertexId) : Graph :=
  let outs := ((alookup g.adjacencyOut h).getD []).map Prod.fst
  let ins := ((alookup g.adjacencyIn h).getD []).map Prod.fst
  let aIn := outs.foldl
    (fun m out =>
      match alookup m out with
      | some inner => aset m out (adel inner h)
      | none => m)
    g.adjacencyIn
  let aOut := ins.foldl
    (fun m inn =>
      match alookup m inn with
      | some inner => aset m inn (adel inner h)
      | none => m)
    g.adjacencyOut
  { adjacencyOut := adel aOut h
    adjacencyIn := adel aIn h
    hash := adel g.hash h }

def remove (g : Graph) (v : Vertex) : Graph :=
  g.removeId (hashcode v)

/-- `Graph.Vertices`: all vertices of the hash table. -/
def vertices (g : Graph) : List Vertex :=
  g.hash.map Prod.snd

/-- `Graph.OutEdges`: destination vertices of the out-adjacency of `v`. -/
def outEdges (g : Graph) (v : Vertex) : List Vertex :=
  ((alookup g.adjacencyOut (hashcode v)).getD []).filterMap
    (fun p => alookup g.hash p.1)

/-- `Graph.InEdges`. -/
def inEdges (g : Graph) (v : Vertex) : List Vertex :=
  ((alookup g.adjacencyIn (hashcode v)).getD []).filterMap
    (fun p => alookup g.hash p.1)

/-- `Graph.Reverse`: swap the two adjacency maps (a view; no copy). -/
def reverse (g : Graph) : Graph :=
  { adjacencyOut := g.adjacencyIn
    adjacencyIn := g.adjacencyOut
    hash := g.hash }

/-- `Graph.Copy`: a deep copy of the adjacency structure.  In the pure
embedding a deep copy denotes the same value. -/
def copy (g : Graph) : Graph := g

/-- Weight recorded for the out-edge `h1 → h2`, if present. -/
def edgeWeightOut (g : Graph) (h1 h2 : VertexId) : Option Int :=
  (alookup g.adjacencyOut h1).bind (fun m => alookup m h2)

/-- Weight recorded on the in-adjacency side for `h1 → h2`. -/
def edgeWeightIn (g : Graph) (h1 h2 : VertexId) : Option Int :=
  (alookup g.adjacencyIn h2).bind (fun m => alookup m h1)

end Graph

/-! ## Concrete vertices used by counterexamples and witnesses -/

/-- A named value vertex `"a" int` with no value yet. -/
def vaEmpty : Vertex := .value "a" .tInt "" .invalid

/-- A named value vertex with the same identity as `vaEmpty` but carrying
a concrete value: the `Hashcode` of a `valueVertex` ignores `Value`. -/
def vaFilled : Vertex := .value "a" .tInt "" (.intV 5)

/-- A second named value vertex `"b" int`. -/
def vbEmpty : Vertex := .value "b" .tInt "" .invalid

/-- A graph holding just `vaEmpty`. -/
def gOneVertex : Graph := (Graph.empty.add vaEmpty).1

/-- A graph holding `vaEmpty` and `vbEmpty` and the edge
`a → b` with weight 7 (added before the claims' two insertions run). -/
def gPriorEdge : Graph :=
  (((Graph.empty.add vaEmpty).1.add vbEmpty).1.addEdgeWeighted vaEmpty vbEmpty 7).getD
    Graph.empty

/-- A graph holding `vaEmpty` and `vbEmpty` with no edges. -/
def gTwoVertices : Graph := ((Graph.empty.add vaEmpty).1.add vbEmpty).1

/-! ## C5 — `Graph.Add` idempotence and its return value -/

/-- C5 (counterexample).  The claim says `Add` returns the canonical
(already-stored) vertex for the identity.  Adding `vaFilled` — whose
identity equals `vaEmpty`'s but whose payload differs — returns the
argument `vaFilled`, while the stored canonical vertex is still
`vaEmpty`; the two are different vertices. -/
theorem add_returns_argument_not_canonical :
    (gOneVertex.add vaFilled).2 = vaFilled ∧
      alookup (gOneVertex.add vaFilled).1.hash (hashcode vaFilled) = some vaEmpty ∧
      vaFilled ≠ vaEmpty := by
  decide

/-- C5 (amended).  `Graph.Add` is idempotent by hash identity: if the
identity of `v` is already registered, `Add` leaves the vertex table and
both adjacency maps unchanged and returns its argument `v` (which is the
stored canonical vertex only when the payloads coincide). -/
theorem add_idempotent_by_identity (g : Graph) (v : Vertex)
    (h : (alookup g.adjacencyOut (hashcode v)).isSome = true) :
    g.add v = (g, v) := by
  unfold Graph.add
  obtain ⟨m, hm⟩ := Option.isSome_iff_exists.mp h
  rw [hm]

/-- C5 (witness): the amended theorem applied at `gOneVertex`/`vaFilled`. -/
theorem add_idempotent_by_identity_witness :
    (alookup gOneVertex.adjacencyOut (hashcode vaFilled)).isSome = true ∧
      gOneVertex.add vaFilled = (gOneVertex, vaFilled) :=
  ⟨by decide, add_idempotent_by_identity gOneVertex vaFilled (by decide)⟩

/-! ## C6 — `AddEdgeWeighted` idempotence and first-writer weight -/

/-- C6 (counterexample).  The claim quantifies over *every* graph whose
endpoints are present and asserts the weight afterwards equals the first
of the two supplied weights.  On `gPriorEdge`, where the edge already
exists with weight 7, the two insertions (weights 1, then 2) are both
no-ops and the weight stays 7 — not 1. -/
theorem addEdgeWeighted_prior_weight_sticks :
    ((gPriorEdge.addEdgeWeighted vaEmpty vbEmpty 1).bind
        (fun g => g.addEdgeWeighted vaEmpty vbEmpty 2)) = some gPriorEdge ∧
      gPriorEdge.edgeWeightOut (hashcode vaEmpty) (hashcode vbEmpty) = some 7 ∧
      (7 : Int) ≠ 1 := by
  decide

/-- C6 (amended).  For endpoints already added and *no pre-existing
`v1 → v2` edge*, adding the edge twice with weights `w1` then `w2` keeps
the first-written weight `w1` in both adjacency maps, and the second
insertion is a no-op. -/
theorem addEdgeWeighted_first_writer_wins (g : Graph) (v1 v2 : Vertex) (w1 w2 : Int)
    (hout : (alookup g.adjacencyOut (hashcode v1)).isSome = true)
    (hin : (alookup g.adjacencyIn (hashcode v2)).isSome = true)
    (hnoedge : g.edgeWeightOut (hashcode v1) (hashcode v2) = none) :
    ∃ g1, g.addEdgeWeighted v1 v2 w1 = some g1 ∧
      g1.addEdgeWeighted v1 v2 w2 = some g1 ∧
      g1.edgeWeightOut (hashcode v1) (hashcode v2) = some w1 ∧
      g1.edgeWeightIn (hashcode v1) (hashcode v2) = some w1 := by
  obtain ⟨outMap, hm⟩ := Option.isSome_iff_exists.mp hout
  obtain ⟨inMap, hmi⟩ := Option.isSome_iff_exists.mp hin
  have hlo : alookup outMap (hashcode v2) = none := by
    unfold Graph.edgeWeightOut at hnoedge
    rw [hm] at hnoedge
    simpa using hnoedge
  refine ⟨{ g with
      adjacencyOut := aset g.adjacencyOut (hashcode v1) (aset outMap (hashcode v2) w1)
      adjacencyIn := aset g.adjacencyIn (hashcode v2) (aset inMap (hashcode v1) w1) },
    ?_, ?_, ?_, ?_⟩
  · unfold Graph.addEdgeWeighted
    rw [hm]
    simp [hlo, hmi]
  · unfold Graph.addEdgeWeighted
    simp only [alookup_aset_self]
    simp [alookup_aset_self]
  · unfold Graph.edgeWeightOut
    simp [alookup_aset_self]
  · unfold Graph.edgeWeightIn
    simp [alookup_aset_self]

/-- C6 (witness): the amended theorem applied on `gTwoVertices`. -/
theorem addEdgeWeighted_first_writer_wins_witness :
    (alookup gTwoVertices.adjacencyOut (hashcode vaEmpty)).isSome = true ∧
      (alookup gTwoVertices.adjacencyIn (hashcode vbEmpty)).isSome = true ∧
      gTwoVertices.edgeWeightOut (hashcode vaEmpty) (hashcode vbEmpty) = none ∧
      ∃ g1, gTwoVertices.addEdgeWeighted vaEmpty vbEmpty 3 = some g1 ∧
        g1.addEdgeWeighted vaEmpty vbEmpty 9 = some g1 ∧
        g1.edgeWeightOut (hashcode vaEmpty) (hashcode vbEmpty) = some 3 ∧
        g1.edgeWeightIn (hashcode vaEmpty) (hashcode vbEmpty) = some 3 :=
  ⟨by decide, by decide, by decide,
    addEdgeWeighted_first_writer_wins gTwoVertices vaEmpty vbEmpty 3 9
      (by decide) (by decide) (by decide)⟩

/-! ## C10 — edge insertion panics on an unadded source -/

/-- C10.  If the source vertex was never added (its hash code has no
out-adjacency entry), `AddEdgeWeighted` — and therefore `AddEdge` —
assigns into a `nil` map and panics (`none` in the embedding) rather
than doing nothing as the Go doc comment promises; when both endpoints
were previously added, both operations are total (`isSome`). -/
theorem addEdge_panics_on_missing_source (g : Graph) (v1 v2 : Vertex) (w : Int) :
    (alookup g.adjacencyOut (hashcode v1) = none →
      g.addEdgeWeighted v1 v2 w = none ∧ g.addEdge v1 v2 = none) ∧
    ((alookup g.adjacencyOut (hashcode v1)).isSome = true →
      (alookup g.adjacencyIn (hashcode v2)).isSome = true →
      (g.addEdgeWeighted v1 v2 w).isSome = true ∧ (g.addEdge v1 v2).isSome = true) := by
  constructor
  · intro hnone
    unfold Graph.addEdge Graph.addEdgeWeighted
    rw [hnone]
    exact ⟨rfl, rfl⟩
  · intro hout hin
    obtain ⟨outMap, hm⟩ := Option.isSome_iff_exists.mp hout
    obtain ⟨inMap, hmi⟩ := Option.isSome_iff_exists.mp hin
    constructor
    · unfold Graph.addEdgeWeighted
      rw [hm]
      by_cases hcase : (alookup outMap (hashcode v2)).isSome = true
      · simp [hcase]
      · simp [hcase, hmi]
    · unfold Graph.addEdge Graph.addEdgeWeighted
      rw [hm]
      by_cases hcase : (alookup outMap (hashcode v2)).isSome = true
      · simp [hcase]
      · simp [hcase, hmi]

/-- C10 (witness): on the empty graph the insertion panics; on
`gTwoVertices` (both endpoints added) it succeeds. -/
theorem addEdge_panics_on_missing_source_witness :
    (alookup Graph.empty.adjacencyOut (hashcode vaEmpty) = none ∧
      (Graph.empty.addEdgeWeighted vaEmpty vbEmpty 4 = none ∧
        Graph.empty.addEdge vaEmpty vbEmpty = none)) ∧
    ((gTwoVertices.addEdgeWeighted vaEmpty vbEmpty 4).isSome = true ∧
      (gTwoVertices.addEdge vaEmpty vbEmpty).isSome = true) :=
  ⟨⟨by decide, (addEdge_panics_on_missing_source Graph.empty vaEmpty vbEmpty 4).1 (by decide)⟩,
    (addEdge_panics_on_missing_source gTwoVertices vaEmpty vbEmpty 4).2
      (by decide) (by decide)⟩

/-! ## C1 — the name-matching "reweighting" in `Func.reachTarget`

`reachTarget` copies the graph and, for every `valueVertex` sharing the
pending requirement's name, calls `AddEdgeWeighted(src, raw, -1)` for
each in-edge source `src`.  Because those edges already exist,
`AddEdgeWeighted` early-returns and the stored weights never change. -/

/-- Every hash-table entry is stored under the vertex's own hash code
(true of every graph built through `Add`). -/
def Graph.keyConsistent (g : Graph) : Bool :=
  g.hash.all (fun p => decide (hashcode p.2 = p.1))

/-- Every in-adjacency entry has a matching out-adjacency entry with the
same weight (true of every graph built through `AddEdgeWeighted`). -/
def Graph.edgeConsistent (g : Graph) : Bool :=
  g.adjacencyIn.all
    (fun q => q.2.all (fun e => decide (g.edgeWeightOut e.1 q.1 = some e.2)))

def Graph.consistent (g : Graph) : Bool :=
  g.keyConsistent && g.edgeConsistent

/-- The inner loop of the reweighting block: walk the in-edge sources of
`raw` (captured once) and re-add each edge with the discount weight. -/
def reweightInner (raw : Vertex) : Graph → List Vertex → Option Graph
  | g, [] => some g
  | g, src :: rest =>
      match g.addEdgeWeighted src raw weightMatchingName with
      | none => none
      | some g' => reweightInner raw g' rest

/-- The outer loop: for every `valueVertex` whose name matches the
requirement's name, run the inner loop over its current in-edges. -/
def reweightVertices (name : String) : Graph → List Vertex → Option Graph
  | g, [] => some g
  | g, .value n ty st val :: rest =>
      if n = name then
        match reweightInner (.value n ty st val) g
            (g.inEdges (.value n ty st val)) with
        | none => none
        | some g' => reweightVertices name g' rest
      else reweightVertices name g rest
  | g, .root :: rest => reweightVertices name g rest
  | g, .typedArg _ _ _ _ :: rest => reweightVertices name g rest
  | g, .typedOutput _ _ _ _ :: rest => reweightVertices name g rest
  | g, .func _ :: rest => reweightVertices name g rest

/-- The name-preference block of `Func.reachTarget` (`call.go`): copy the
graph, then reweight the in-edges of every vertex sharing the name. -/
def reweightForName (g : Graph) (name : String) : Option Graph :=
  reweightVertices name g.copy (g.copy.vertices)

theorem addEdgeWeighted_existing_edge_noop (g : Graph) (v1 v2 : Vertex) (w : Int)
    (h : (g.edgeWeightOut (hashcode v1) (hashcode v2)).isSome = true) :
    g.addEdgeWeighted v1 v2 w = some g := by
  unfold Graph.edgeWeightOut at h
  cases hm : alookup g.adjacencyOut (hashcode v1) with
  | none => rw [hm] at h; simp at h
  | some outMap =>
      rw [hm] at h
      rw [Option.some_bind] at h
      unfold Graph.addEdgeWeighted
      rw [hm]
      simp [h]

theorem inEdges_edge_exists (g : Graph) (raw src : Vertex)
    (hcons : g.consistent = true) (hmem : src ∈ g.inEdges raw) :
    (g.edgeWeightOut (hashcode src) (hashcode raw)).isSome = true := by
  have hkey : g.keyConsistent = true := by
    unfold Graph.consistent at hcons
    exact (Bool.and_eq_true ..).mp hcons |>.1
  have hedge : g.edgeConsistent = true := by
    unfold Graph.consistent at hcons
    exact (Bool.and_eq_true ..).mp hcons |>.2
  unfold Graph.inEdges at hmem
  cases hinner : alookup g.adjacencyIn (hashcode raw) with
  | none => rw [hinner] at hmem; simp at hmem
  | some inner =>
      rw [hinner] at hmem
      simp only [Option.getD_some] at hmem
      obtain ⟨e, hel, hev⟩ := List.mem_filterMap.mp hmem
      -- the in-adjacency pair is an entry of the outer list
      have hpair : (hashcode raw, inner) ∈ g.adjacencyIn := alookup_mem hinner
      have hrow := (List.all_eq_true.mp hedge) _ hpair
      have hw := (List.all_eq_true.mp hrow) _ hel
      have hwp : g.edgeWeightOut e.1 (hashcode raw) = some e.2 :=
        of_decide_eq_true hw
      -- the source vertex is stored under its own hash code
      have hsrcmem : (e.1, src) ∈ g.hash := alookup_mem hev
      have hs := (List.all_eq_true.mp hkey) _ hsrcmem
      have hsp : hashcode src = e.1 := of_decide_eq_true hs
      rw [hsp, hwp]
      rfl

theorem reweightInner_noop (raw : Vertex) (srcs : List Vertex) :
    ∀ g : Graph,
      (∀ src ∈ srcs, (g.edgeWeightOut (hashcode src) (hashcode raw)).isSome = true) →
      reweightInner raw g srcs = some g := by
  induction srcs with
  | nil => intro g _; rfl
  | cons src rest ih =>
      intro g hall
      unfold reweightInner
      rw [addEdgeWeighted_existing_edge_noop g src raw weightMatchingName
        (hall src (List.mem_cons_self _ _))]
      exact ih g (fun s hs => hall s (List.mem_cons_of_mem _ hs))

theorem reweightVertices_noop (name : String) (vs : List Vertex) :
    ∀ g : Graph, g.consistent = true → reweightVertices name g vs = some g := by
  induction vs with
  | nil => intro g _; rfl
  | cons raw rest ih =>
      intro g hcons
      cases raw with
      | value n ty st val =>
          by_cases hn : n = name
          · have hinner := reweightInner_noop (Vertex.value n ty st val)
              (g.inEdges (Vertex.value n ty st val)) g
              (fun src hs => inEdges_edge_exists g _ src hcons hs)
            simp only [reweightVertices, if_pos hn, hinner]
            exact ih g hcons
          · simp only [reweightVertices, if_neg hn]
            exact ih g hcons
      | root => simp only [reweightVertices]; exact ih g hcons
      | typedArg n ty st val => simp only [reweightVertices]; exact ih g hcons
      | typedOutput n ty st val => simp only [reweightVertices]; exact ih g hcons
      | func fid => simp only [reweightVertices]; exact ih g hcons

/-- C1.  The claim says the copied graph's incoming edges to every
same-named `valueVertex` are reweighted to the `-1` discount so that the
shortest path strictly prefers the name-matching provider.  In fact, on
any consistent graph the whole reweighting block is the identity: every
`AddEdgeWeighted(src, raw, weightMatchingName)` call hits the
already-present-edge early return, so the copy keeps the original
weights and no discount is ever recorded.  This contradicts the block's
own comment ("This lets our shortest paths prefer matching through
same-named arguments"). -/
theorem reachTarget_name_reweighting_is_noop (g : Graph) (name : String)
    (hcons : g.consistent = true) :
    reweightForName g name = some g :=
  reweightVertices_noop name (g.copy.vertices) g hcons

/-- A graph with the named requirement `"a" int` and an in-edge from the
provider `"b" int` with the normal weight 1: the failing input for C1. -/
def gNamePref : Graph :=
  (gTwoVertices.addEdgeWeighted vbEmpty vaEmpty weightNormal).getD Graph.empty

/-- C1 (witness): evaluating the code on the failing input.  After the
"reweighting" the graph is unchanged and the edge into the `"a"` vertex
still has weight 1, not the claimed `-1`. -/
theorem reachTarget_name_reweighting_is_noop_witness :
    gNamePref.consistent = true ∧
      reweightForName gNamePref "a" = some gNamePref ∧
      gNamePref.edgeWeightOut (hashcode vbEmpty) (hashcode vaEmpty) = some 1 ∧
      gNamePref.edgeWeightOut (hashcode vbEmpty) (hashcode vaEmpty) ≠
        some weightMatchingName :=
  ⟨by decide, reachTarget_name_reweighting_is_noop gNamePref "a" (by decide),
    by decide, by decide⟩

/-! ## C3 — pending-requirement selection in `Func.reachTarget`

The first loop of `reachTarget` collects the out-edges of the target
into `vertexT`, skipping a destination exactly when it is a
`typedArgVertex` whose `Value` is already valid. -/

/-- The `vertexT` computation of `Func.reachTarget` (`call.go`). -/
def pendingRequirements (g : Graph) (target : Vertex) : List Vertex :=
  (g.outEdges target).filter fun out =>
    match out with
    | .typedArg _ _ _ v => ! v.isValid
    | _ => true

/-- C3.  A `typedArgVertex` with an already-valid `Value` is never part
of the pending requirements, for any graph and any target: the resolver
does not request a replacement value for it. -/
theorem valid_typedArg_never_pending (g : Graph) (target : Vertex)
    (n : String) (ty : GoType) (st : String) (v : RVal)
    (hvalid : v.isValid = true) :
    Vertex.typedArg n ty st v ∉ pendingRequirements g target := by
  intro hmem
  unfold pendingRequirements at hmem
  have hcond := List.of_mem_filter hmem
  simp only [hvalid] at hcond
  exact Bool.false_ne_true hcond

/-- A typed arg vertex for `int` already carrying the value 3. -/
def vArgValid : Vertex := .typedArg "" .tInt "" (.intV 3)

/-- A graph in which the target function's only requirement edge points
at `vArgValid`. -/
def gSatisfied : Graph :=
  (((Graph.empty.add (.func 0)).1.add vArgValid).1.addEdgeWeighted
      (.func 0) vArgValid weightTyped).getD Graph.empty

/-- C3 (witness): on `gSatisfied` the valid typed arg is an out-edge of
the target, yet the pending-requirement list is empty. -/
theorem valid_typedArg_never_pending_witness :
    (RVal.intV 3).isValid = true ∧
      vArgValid ∈ gSatisfied.outEdges (.func 0) ∧
      Vertex.typedArg "" .tInt "" (.intV 3) ∉ pendingRequirements gSatisfied (.func 0) :=
  ⟨by decide, by decide,
    valid_typedArg_never_pending gSatisfied (.func 0) "" .tInt "" (.intV 3) (by decide)⟩

/-! ## C4 — `Result.Len` and the trailing error slot (`result.go`) -/

/-- Embedding of `Result`: the ordered call outputs plus the build
error. -/
structure ResultM : Type where
  out : List RVal
  buildErr : Option GoErr
deriving DecidableEq, Repr

/-- `resultError` from `result.go`. -/
def resultError (e : GoErr) : ResultM := ⟨[], some e⟩

/-- `Result.hasError`: the output list is non-empty and its final slot
has the distinguished `error` type. -/
def ResultM.hasError (r : ResultM) : Bool :=
  match r.out.getLast? with
  | some v => decide (v.tyOf = some GoType.tErr)
  | none => false

/-- `Result.Err`: the build error takes precedence; otherwise a valid
trailing slot of type `error` holding a non-nil error is returned. -/
def ResultM.errOf (r : ResultM) : Option GoErr :=
  match r.buildErr with
  | some e => some e
  | none =>
      match r.out.getLast? with
      | some (.errV e) => e
      | _ => none

/-- `Result.Len`: number of outputs, minus one when the final output is
the error slot. -/
def ResultM.len (r : ResultM) : Nat :=
  r.out.length - (if r.hasError then 1 else 0)

/-- `Result.Out(i)` (out-of-range indexing panics in Go; `none` here). -/
def ResultM.outAt (r : ResultM) (i : Nat) : Option RVal := r.out.get? i

/-- The error content of the trailing output slot, if it is one. -/
def trailingErr : Option RVal → Option GoErr
  | some (.errV e) => e
  | _ => none

/-- C4.  When the underlying function declares a trailing error-typed
output (`hasError`), `Len` counts one less than the raw output list —
so `(error)`, `(int, error)`, `(int, bool, error)` give 0, 1 and 2 — and
(absent a build error) `Err` is exactly the trailing slot's error. -/
theorem result_len_excludes_trailing_error (r : ResultM)
    (h : r.hasError = true) :
    r.len + 1 = r.out.length ∧
      (r.buildErr = none → r.errOf = trailingErr r.out.getLast?) := by
  have hne : r.out ≠ [] := by
    intro hnil
    unfold ResultM.hasError at h
    rw [hnil] at h
    simp at h
  have hlen : 1 ≤ r.out.length := by
    cases hout : r.out with
    | nil => exact absurd hout hne
    | cons a l => simp
  constructor
  · unfold ResultM.len
    rw [if_pos h]
    omega
  · intro hb
    unfold ResultM.errOf
    rw [hb]
    unfold ResultM.hasError at h
    cases hlast : r.out.getLast? with
    | none => rw [hlast] at h; simp at h
    | some v =>
        rw [hlast] at h
        have hty : v.tyOf = some GoType.tErr := of_decide_eq_true h
        cases v with
        | errV e => rfl
        | invalid => simp [RVal.tyOf] at hty
        | intV n => simp [RVal.tyOf] at hty
        | boolV b => simp [RVal.tyOf] at hty
        | strV s => simp [RVal.tyOf] at hty
        | otherV t d => simp [RVal.tyOf] at hty

/-- The three output shapes named by the claim. -/
def rShape0 : ResultM := ⟨[.errV none], none⟩

def rShape1 : ResultM := ⟨[.intV 7, .errV (some ["boom"])], none⟩

def rShape2 : ResultM := ⟨[.intV 1, .boolV true, .errV none], none⟩

/-- C4 (witness): lengths 0, 1 and 2 for the claim's three shapes, and
the theorem applied at the `(int, bool, error)` shape. -/
theorem result_len_excludes_trailing_error_witness :
    rShape0.len = 0 ∧ rShape1.len = 1 ∧ rShape2.len = 2 ∧
      rShape2.hasError = true ∧
      (rShape2.len + 1 = rShape2.out.length ∧
        (rShape2.buildErr = none → rShape2.errOf = trailingErr rShape2.out.getLast?)) :=
  ⟨by decide, by decide, by decide, by decide,
    result_len_excludes_trailing_error rShape2 (by decide)⟩

/-! ## C9 — case-insensitive name matching via ingress lowercasing -/

/-- Embedding of `strings.ToLower` (per-character lowercasing; agrees
with Go on the ASCII names used by argument matching). -/
def goToLower (s : String) : String := ⟨s.data.map Char.toLower⟩

/-- `Named` ingress (`args.go`): the builder stores the value under the
lowercased name. -/
def namedArgKey (n : String) : String := goToLower n

/-- Struct-field ingress (`newValueSetFromStruct`, `value_set.go`): the
field name, optionally renamed by position 0 of the `argmapper` tag, is
always lowercased. -/
def structFieldIngressName (fieldName : String) (tagRename : Option String) : String :=
  match tagRename with
  | some r => if r = "" then goToLower fieldName else goToLower r
  | none => goToLower fieldName

/-- The `valueVertex` the resolver creates for a supplied named input
(`argBuilder.graph`). -/
def namedInputVertex (n : String) (ty : GoType) (v : RVal) : Vertex :=
  .value (namedArgKey n) ty "" v

/-- The `valueVertex` a function's named requirement creates
(`Func.graph`, `ValueNamed` case), for a plain field with no rename. -/
def namedRequirementVertex (fieldName : String) (ty : GoType) : Vertex :=
  .value (structFieldIngressName fieldName none) ty "" .invalid

theorem add_registers_identity (g : Graph) (v : Vertex) :
    (alookup (g.add v).1.adjacencyOut (hashcode v)).isSome = true := by
  unfold Graph.add
  cases hm : alookup g.adjacencyOut (hashcode v) with
  | some m => simp [hm]
  | none => simp [alookup_aset_self]

/-- C9.  Both ingress points lowercase, so an input supplied under any
capitalisation of a name has the same vertex identity as a requirement
declared under any capitalisation of the same name, and adding the
input vertex to a graph that already holds the requirement vertex fuses
the two (the graph is unchanged). -/
theorem named_matching_case_insensitive (nIn nField : String) (ty : GoType)
    (v : RVal) (g : Graph)
    (h : goToLower nIn = goToLower nField) :
    hashcode (namedInputVertex nIn ty v) =
        hashcode (namedRequirementVertex nField ty) ∧
      ((g.add (namedRequirementVertex nField ty)).1.add
          (namedInputVertex nIn ty v)).1 =
        (g.add (namedRequirementVertex nField ty)).1 := by
  have hid : hashcode (namedInputVertex nIn ty v) =
      hashcode (namedRequirementVertex nField ty) := by
    unfold namedInputVertex namedRequirementVertex namedArgKey structFieldIngressName
    simp [hashcode, h]
  refine ⟨hid, ?_⟩
  have hreg := add_registers_identity g (namedRequirementVertex nField ty)
  have hreg' : (alookup (g.add (namedRequirementVertex nField ty)).1.adjacencyOut
      (hashcode (namedInputVertex nIn ty v))).isSome = true := by
    rw [hid]; exact hreg
  have := add_idempotent_by_identity (g.add (namedRequirementVertex nField ty)).1
    (namedInputVertex nIn ty v) hreg'
  rw [this]

/-- C9 (witness): `Named("A", 12)` fuses with a requirement declared as
field `a` of type `int`, on the empty graph. -/
theorem named_matching_case_insensitive_witness :
    goToLower "A" = goToLower "a" ∧
      (hashcode (namedInputVertex "A" .tInt (.intV 12)) =
          hashcode (namedRequirementVertex "a" .tInt) ∧
        ((Graph.empty.add (namedRequirementVertex "a" .tInt)).1.add
            (namedInputVertex "A" .tInt (.intV 12))).1 =
          (Graph.empty.add (namedRequirementVertex "a" .tInt)).1) :=
  ⟨by decide,
    named_matching_case_insensitive "A" "a" .tInt (.intV 12) Graph.empty (by decide)⟩

/-! ## C2 — pruning unreachable vertices in `Func.Call`

`Func.Call` seeds `visited` with the function vertex's id, DFSes the
reverse graph from the root (the callback returns early at the function
vertex without marking it), and removes every vertex whose id is not in
`visited`. -/

/-- Hash codes of the out-neighbors of `h`. -/
def Graph.outNeighborIds (g : Graph) (h : VertexId) : List VertexId :=
  ((alookup g.adjacencyOut h).getD []).map Prod.fst

/-- Reachability along directed edges, by hash code. -/
inductive ReachesId (g : Graph) : VertexId → VertexId → Prop
  | refl (h : VertexId) : ReachesId g h h
  | step {a b c : VertexId} :
      ReachesId g a b → c ∈ g.outNeighborIds b → ReachesId g a c

/-- Modelled from the spec: the graph package's `DFS` ("DFS with an
explicit visitor (caller decides whether to recurse)") is not among the
sources — only its call site in `Func.Call` is.  This is an explicit
work-list DFS with the call site's visitor inlined: at the function
vertex `fId` the visitor returns without marking or recursing; every
other vertex is marked and its out-neighbors explored. -/
def dfsVisit (g : Graph) (fId : VertexId) :
    Nat → List VertexId → List VertexId → List VertexId
  | 0, _, seen => seen
  | _ + 1, [], seen => seen
  | fuel + 1, h :: stack, seen =>
      if h ∈ seen then dfsVisit g fId fuel stack seen
      else if h = fId then dfsVisit g fId fuel stack seen
      else dfsVisit g fId fuel (g.outNeighborIds h ++ stack) (h :: seen)

/-- Fuel ample for a full traversal: one unit per stack entry that can
ever be pushed (the initial entry plus one per adjacency record). -/
def Graph.dfsFuelFor (g : Graph) : Nat :=
  2 + g.hash.length + g.adjacencyOut.foldl (fun n q => n + q.2.length) 0

/-- The `visited` set of `Func.Call`: seeded with the function vertex's
id, then extended by the reverse-graph DFS from the root. -/
def callVisited (g : Graph) (rootV fV : Vertex) : List VertexId :=
  hashcode fV ::
    dfsVisit g.reverse (hashcode fV) g.reverse.dfsFuelFor [hashcode rootV] []

/-- The prune loop of `Func.Call`: remove every vertex whose id is not
in `visited`. -/
def pruneUnreachable (g : Graph) (rootV fV : Vertex) : Graph :=
  g.vertices.foldl
    (fun acc v => if hashcode v ∈ callVisited g rootV fV then acc else acc.remove v)
    g

theorem dfsVisit_sound (g : Graph) (fId : VertexId) (P : VertexId → Prop)
    (hstep : ∀ a b, P a → b ∈ g.outNeighborIds a → P b) :
    ∀ (fuel : Nat) (stack seen : List VertexId),
      (∀ x ∈ stack, P x) → (∀ x ∈ seen, P x) →
      ∀ h ∈ dfsVisit g fId fuel stack seen, P h := by
  intro fuel
  induction fuel with
  | zero => intro stack seen _ hseen h hmem; exact hseen h hmem
  | succ fuel ih =>
      intro stack seen hstack hseen h hmem
      cases stack with
      | nil => exact hseen h hmem
      | cons x rest =>
          have hx : P x := hstack x (List.mem_cons_self _ _)
          have hrest : ∀ y ∈ rest, P y :=
            fun y hy => hstack y (List.mem_cons_of_mem _ hy)
          by_cases hseen' : x ∈ seen
          · rw [dfsVisit, if_pos hseen'] at hmem
            exact ih rest seen hrest hseen h hmem
          · by_cases hf : x = fId
            · rw [dfsVisit, if_neg hseen', if_pos hf] at hmem
              exact ih rest seen hrest hseen h hmem
            · rw [dfsVisit, if_neg hseen', if_neg hf] at hmem
              refine ih (g.outNeighborIds x ++ rest) (x :: seen) ?_ ?_ h hmem
              · intro y hy
                rcases List.mem_append.mp hy with hy | hy
                · exact hstep x y hx hy
                · exact hrest y hy
              · intro y hy
                rcases List.mem_cons.mp hy with hy | hy
                · rw [hy]; exact hx
                · exact hseen y hy

theorem callVisited_sound (g : Graph) (rootV fV : Vertex) (h : VertexId)
    (hmem : h ∈ callVisited g rootV fV) :
    h = hashcode fV ∨ ReachesId g.reverse (hashcode rootV) h := by
  unfold callVisited at hmem
  rcases List.mem_cons.mp hmem with hh | hh
  · exact Or.inl hh
  · refine Or.inr ?_
    refine dfsVisit_sound g.reverse (hashcode fV)
      (ReachesId g.reverse (hashcode rootV))
      (fun a b ha hb => ReachesId.step ha hb)
      g.reverse.dfsFuelFor [hashcode rootV] [] ?_ ?_ h hh
    · intro x hx
      rcases List.mem_singleton.mp hx with hx
      rw [hx]
      exact ReachesId.refl _
    · intro x hx
      exact absurd hx (List.not_mem_nil x)

theorem remove_hash_eq (g : Graph) (w : Vertex) :
    (g.remove w).hash = adel g.hash (hashcode w) := rfl

theorem remove_hash_mono (g : Graph) (w : Vertex) (h : VertexId) (v : Vertex)
    (hl : alookup (g.remove w).hash h = some v) : alookup g.hash h = some v := by
  rw [remove_hash_eq] at hl
  by_cases hc : hashcode w = h
  · rw [hc, alookup_adel_self] at hl
    exact absurd hl (by simp)
  · rwa [alookup_adel_ne _ _ _ hc] at hl

theorem fold_remove_lookup (visited : List VertexId) :
    ∀ (vs : List Vertex) (acc : Graph) (h : VertexId) (v : Vertex),
      alookup (vs.foldl
          (fun acc v => if hashcode v ∈ visited then acc else acc.remove v)
          acc).hash h = some v →
      alookup acc.hash h = some v ∧
        (h ∈ visited ∨ ∀ w ∈ vs, hashcode w ≠ h) := by
  intro vs
  induction vs with
  | nil =>
      intro acc h v hl
      exact ⟨hl, Or.inr (fun w hw => absurd hw (List.not_mem_nil w))⟩
  | cons w vs' ih =>
      intro acc h v hl
      rw [List.foldl_cons] at hl
      by_cases hw : hashcode w ∈ visited
      · rw [if_pos hw] at hl
        obtain ⟨hacc, hrest⟩ := ih acc h v hl
        refine ⟨hacc, ?_⟩
        rcases hrest with hvis | hnone
        · exact Or.inl hvis
        · by_cases hv : h ∈ visited
          · exact Or.inl hv
          · refine Or.inr (fun x hx => ?_)
            rcases List.mem_cons.mp hx with hx | hx
            · rw [hx]
              intro heq
              rw [heq] at hw
              exact hv hw
            · exact hnone x hx
      · rw [if_neg hw] at hl
        obtain ⟨hacc, hrest⟩ := ih (acc.remove w) h v hl
        refine ⟨remove_hash_mono acc w h v hacc, ?_⟩
        rcases hrest with hvis | hnone
        · exact Or.inl hvis
        · refine Or.inr (fun x hx => ?_)
          rcases List.mem_cons.mp hx with hx | hx
          · rw [hx]
            intro heq
            rw [remove_hash_eq, heq, alookup_adel_self] at hacc
            exact absurd hacc (by simp)
          · exact hnone x hx

/-- C2 (amended).  After the prune step of `Func.Call`, every remaining
vertex is either the target function's vertex — whose id seeds the
visited set and which therefore always survives — or a vertex reachable
from the root in the reversed graph. -/
theorem prune_keeps_reachable_or_target (g : Graph) (rootV fV : Vertex)
    (h : VertexId) (v : Vertex)
    (hkey : g.keyConsistent = true)
    (hmem : alookup (pruneUnreachable g rootV fV).hash h = some v) :
    h = hashcode fV ∨ ReachesId g.reverse (hashcode rootV) h := by
  unfold pruneUnreachable at hmem
  obtain ⟨hg, hrest⟩ := fold_remove_lookup (callVisited g rootV fV) g.vertices g h v hmem
  rcases hrest with hvis | hnone
  · exact callVisited_sound g rootV fV h hvis
  · -- impossible: the surviving entry's own vertex is in the iteration list
    exfalso
    have hpair : (h, v) ∈ g.hash := alookup_mem hg
    have hv : v ∈ g.vertices := by
      unfold Graph.vertices
      exact List.mem_map.mpr ⟨(h, v), hpair, rfl⟩
    have hcode : hashcode v = h :=
      of_decide_eq_true ((List.all_eq_true.mp hkey) _ hpair)
    exact hnone v hv hcode

/-- A graph in which the target function (requiring the named value
`"a" int`) is disconnected from the root: no input provides `a`. -/
def gPrune : Graph :=
  ((((Graph.empty.add .root).1.add (.func 1)).1.add vaEmpty).1.addEdge
      (.func 1) vaEmpty).getD Graph.empty

/-- C2 (counterexample).  The claim says every vertex remaining after
the prune is reachable from Root in the reversed graph.  In `gPrune`
the function vertex survives the prune (its id is pre-seeded into
`visited`) although it is not reachable from the root in the reversed
graph. -/
theorem pruned_graph_keeps_unreachable_func :
    alookup (pruneUnreachable gPrune .root (.func 1)).hash (VertexId.func 1) =
        some (.func 1) ∧
      ¬ ReachesId gPrune.reverse VertexId.root (VertexId.func 1) := by
  constructor
  · decide
  · intro hr
    have hroot : ∀ h : VertexId,
        ReachesId gPrune.reverse VertexId.root h → h = VertexId.root := by
      intro h hh
      induction hh with
      | refl => rfl
      | step hab hmem ih =>
          rw [ih] at hmem
          have hnil : gPrune.reverse.outNeighborIds VertexId.root = [] := by decide
          rw [hnil] at hmem
          exact absurd hmem (List.not_mem_nil _)
    have := hroot _ hr
    exact absurd this (by decide)

/-- C2 (witness): the amended theorem applied to `gPrune` at the
function vertex. -/
theorem prune_keeps_reachable_or_target_witness :
    gPrune.keyConsistent = true ∧
      (VertexId.func 1 = hashcode (Vertex.func 1) ∨
        ReachesId gPrune.reverse (hashcode Vertex.root) (VertexId.func 1)) :=
  ⟨by decide,
    prune_keeps_reachable_or_target gPrune .root (.func 1) (VertexId.func 1)
      (.func 1) (by decide) (by decide)⟩

/-! ## C7 — `Func.callDirect` and unsatisfied named arguments

`callDirect` fills the input struct from the call state's `NamedValue`
and `TypedValue` tables, accumulating an error per missing field into a
single `multierror`, and only calls the underlying function when no
error accumulated. -/

/-- A `structField` of the input value set: field index and type. -/
structure StructFieldM : Type where
  index : Nat
  fieldType : GoType
deriving DecidableEq, Repr

/-- The input `valueSet`: named fields keyed by (lowercased) name, plus
type-only fields. -/
structure ValueSetM : Type where
  namedFields : List (String × StructFieldM)
  typedFields : List StructFieldM
deriving DecidableEq, Repr

/-- Embedding of `Func`: the input set, the output index maps used by
`outputValues` (output name / output type to struct field index), and
the underlying callable taking the assembled field assignment. -/
structure FuncM : Type where
  input : ValueSetM
  namedOut : List (String × Nat)
  typedOut : List (GoType × Nat)
  fn : List (Nat × RVal) → List RVal

/-- The callState tables of `call.go` (`NamedValue`, `TypedValue`, and
the last-seen `Value`). -/
structure CallStateM : Type where
  namedValue : List (String × RVal)
  typedValue : List (GoType × RVal)
  value : RVal
deriving DecidableEq, Repr

/-- The message `callDirect` produces for a missing named argument. -/
def satisfyMsg (k : String) : String :=
  "argument cannot be satisfied: " ++ k

/-- The message for a missing typed argument. -/
def typedSatisfyMsg (fld : StructFieldM) : String :=
  "typed argument cannot be satisfied at index " ++ toString fld.index ++
    " (type " ++ fld.fieldType.render ++ ")"

/-- The named-field loop of `callDirect`: accumulate error messages and
field assignments. -/
def gatherNamed (state : CallStateM) :
    List (String × StructFieldM) → List String × List (Nat × RVal) →
    List String × List (Nat × RVal)
  | [], acc => acc
  | (k, fld) :: rest, acc =>
      match alookup state.namedValue k with
      | none => gatherNamed state rest (acc.1 ++ [satisfyMsg k], acc.2)
      | some v => gatherNamed state rest (acc.1, acc.2 ++ [(fld.index, v)])

/-- The typed-field loop of `callDirect`. -/
def gatherTyped (state : CallStateM) :
    List StructFieldM → List String × List (Nat × RVal) →
    List String × List (Nat × RVal)
  | [], acc => acc
  | fld :: rest, acc =>
      match alookup state.typedValue fld.fieldType with
      | none => gatherTyped state rest (acc.1 ++ [typedSatisfyMsg fld], acc.2)
      | some v => gatherTyped state rest (acc.1, acc.2 ++ [(fld.index, v)])

/-- `Func.callDirect` (`call.go`): if any build error accumulated, the
Result carries the aggregate and the underlying function is not called;
otherwise the function is invoked on the assembled fields. -/
def callDirect (f : FuncM) (state : CallStateM) : ResultM :=
  match gatherTyped state f.input.typedFields
      (gatherNamed state f.input.namedFields ([], [])) with
  | ([], fields) => { out := f.fn fields, buildErr := none }
  | (e :: es, _) => { out := [], buildErr := some (e :: es) }

theorem gatherNamed_acc (state : CallStateM) (l : List (String × StructFieldM)) :
    ∀ acc : List String × List (Nat × RVal),
      ∃ tl tf, gatherNamed state l acc = (acc.1 ++ tl, acc.2 ++ tf) := by
  induction l with
  | nil => intro acc; exact ⟨[], [], by simp [gatherNamed]⟩
  | cons p rest ih =>
      intro acc
      obtain ⟨k, fld⟩ := p
      cases hkv : alookup state.namedValue k with
      | none =>
          obtain ⟨tl, tf, htl⟩ := ih (acc.1 ++ [satisfyMsg k], acc.2)
          exact ⟨satisfyMsg k :: tl, tf, by
            simp only [gatherNamed, hkv, htl]
            simp⟩
      | some v =>
          obtain ⟨tl, tf, htl⟩ := ih (acc.1, acc.2 ++ [(fld.index, v)])
          exact ⟨tl, (fld.index, v) :: tf, by
            simp only [gatherNamed, hkv, htl]
            simp⟩

theorem gatherTyped_acc (state : CallStateM) (l : List StructFieldM) :
    ∀ acc : List String × List (Nat × RVal),
      ∃ tl tf, gatherTyped state l acc = (acc.1 ++ tl, acc.2 ++ tf) := by
  induction l with
  | nil => intro acc; exact ⟨[], [], by simp [gatherTyped]⟩
  | cons fld rest ih =>
      intro acc
      cases hkv : alookup state.typedValue fld.fieldType with
      | none =>
          obtain ⟨tl, tf, htl⟩ := ih (acc.1 ++ [typedSatisfyMsg fld], acc.2)
          exact ⟨typedSatisfyMsg fld :: tl, tf, by
            simp only [gatherTyped, hkv, htl]
            simp⟩
      | some v =>
          obtain ⟨tl, tf, htl⟩ := ih (acc.1, acc.2 ++ [(fld.index, v)])
          exact ⟨tl, (fld.index, v) :: tf, by
            simp only [gatherTyped, hkv, htl]
            simp⟩

theorem gatherNamed_missing_mem (state : CallStateM)
    (l : List (String × StructFieldM)) :
    ∀ (acc : List String × List (Nat × RVal)) (k : String) (fld : StructFieldM),
      (k, fld) ∈ l → alookup state.namedValue k = none →
      satisfyMsg k ∈ (gatherNamed state l acc).1 := by
  induction l with
  | nil => intro acc k fld hmem; exact absurd hmem (List.not_mem_nil _)
  | cons p rest ih =>
      intro acc k fld hmem hmiss
      obtain ⟨k', fld'⟩ := p
      rcases List.mem_cons.mp hmem with hh | hh
      · cases hh
        rw [gatherNamed, hmiss]
        obtain ⟨tl, tf, htl⟩ := gatherNamed_acc state rest (acc.1 ++ [satisfyMsg k], acc.2)
        rw [htl]
        simp
      · cases hkv : alookup state.namedValue k' with
        | none =>
            rw [gatherNamed, hkv]
            exact ih _ k fld hh hmiss
        | some v =>
            rw [gatherNamed, hkv]
            exact ih _ k fld hh hmiss

/-- C7.  If some required named input has no entry in the call state,
`callDirect` returns a Result whose aggregate error contains
`"argument cannot be satisfied: <name>"` for that input and for every
other missing named input, and the underlying function is not invoked
(the Result is the same for every possible `fn`, with no outputs). -/
theorem missing_named_argument_aborts (f : FuncM) (state : CallStateM)
    (k : String) (fld : StructFieldM)
    (hmem : (k, fld) ∈ f.input.namedFields)
    (hmiss : alookup state.namedValue k = none) :
    ∃ errs, errs ≠ [] ∧
      satisfyMsg k ∈ errs ∧
      (∀ k' fld', (k', fld') ∈ f.input.namedFields →
        alookup state.namedValue k' = none → satisfyMsg k' ∈ errs) ∧
      (∀ fn', callDirect { f with fn := fn' } state =
        { out := [], buildErr := some errs }) := by
  have hnamed := gatherNamed_missing_mem state f.input.namedFields ([], []) k fld hmem hmiss
  obtain ⟨tl, tf, htl⟩ := gatherTyped_acc state f.input.typedFields
    (gatherNamed state f.input.namedFields ([], []))
  refine ⟨(gatherTyped state f.input.typedFields
      (gatherNamed state f.input.namedFields ([], []))).1, ?_, ?_, ?_, ?_⟩
  · intro hnil
    rw [htl] at hnil
    simp only at hnil
    have : satisfyMsg k ∈
        (gatherNamed state f.input.namedFields ([], [])).1 ++ tl :=
      List.mem_append.mpr (Or.inl hnamed)
    rw [hnil] at this
    exact absurd this (List.not_mem_nil _)
  · rw [htl]
    exact List.mem_append.mpr (Or.inl hnamed)
  · intro k' fld' hmem' hmiss'
    have h' := gatherNamed_missing_mem state f.input.namedFields ([], []) k' fld' hmem' hmiss'
    rw [htl]
    exact List.mem_append.mpr (Or.inl h')
  · intro fn'
    unfold callDirect
    rcases hE : gatherTyped state f.input.typedFields
        (gatherNamed state f.input.namedFields ([], [])) with ⟨E, F⟩
    cases E with
    | nil =>
        exfalso
        rw [htl] at hE
        have hmm : satisfyMsg k ∈
            (gatherNamed state f.input.namedFields ([], [])).1 ++ tl :=
          List.mem_append.mpr (Or.inl hnamed)
        have : ((gatherNamed state f.input.namedFields ([], [])).1 ++ tl, _) =
            (([] : List String), F) := hE
        have hcast := congrArg Prod.fst this
        simp only at hcast
        rw [hcast] at hmm
        exact absurd hmm (List.not_mem_nil _)
    | cons e es =>
        simp only [hE]

/-- The target of the C7 witness: two named int fields `a` and `b`. -/
def fTwoNamed : FuncM :=
  { input := { namedFields := [("a", ⟨1, .tInt⟩), ("b", ⟨2, .tInt⟩)]
               typedFields := [] }
    namedOut := []
    typedOut := []
    fn := fun _ => [] }

/-- An empty call state: nothing satisfied. -/
def emptyCallState : CallStateM := ⟨[], [], .invalid⟩

/-- C7 (witness): with both named inputs missing, the Result aggregates
an error for each and the function is never called. -/
theorem missing_named_argument_aborts_witness :
    ("a", (⟨1, .tInt⟩ : StructFieldM)) ∈ fTwoNamed.input.namedFields ∧
      alookup emptyCallState.namedValue "a" = none ∧
      ∃ errs, errs ≠ [] ∧
        satisfyMsg "a" ∈ errs ∧
        (∀ k' fld', (k', fld') ∈ fTwoNamed.input.namedFields →
          alookup emptyCallState.namedValue k' = none → satisfyMsg k' ∈ errs) ∧
        (∀ fn', callDirect { fTwoNamed with fn := fn' } emptyCallState =
          { out := [], buildErr := some errs }) :=
  ⟨by decide, by decide,
    missing_named_argument_aborts fTwoNamed emptyCallState "a" ⟨1, .tInt⟩
      (by decide) (by decide)⟩

/-! ## C8 — converter errors abort the whole call

`reachTarget` replays each chosen path vertex by vertex; at a
`funcVertex` it first reaches the converter's own requirements, then
invokes the converter via `callDirect`; a non-nil `Result.Err()` is
returned immediately, and `Func.Call` turns that error into
`resultError(err)` without calling the target. -/

/-- Errors of the embedded executor.  `convErr` is an error value
returned through the resolver (`return err` in Go); `panic` is a Go
runtime panic (nil dereference / out-of-range); `outOfFuel` marks an
exhausted recursion budget and never occurs in a real run. -/
inductive ExecErr : Type
  | convErr (e : GoErr)
  | panic
  | outOfFuel
deriving DecidableEq, Repr

/-- Executor state: the side table of current vertex `Value`s (the Go
code mutates the shared vertex objects; the pure embedding keys the
values by vertex identity, as §9 of the spec itself recommends) plus the
`callState`. -/
structure ExecSt : Type where
  vals : List (VertexId × RVal)
  cs : CallStateM
deriving DecidableEq, Repr

/-- Current `Value` of a vertex: the side table entry, defaulting to the
payload the vertex carried when the graph was built. -/
def readVal (st : ExecSt) (v : Vertex) : RVal :=
  (alookup st.vals (hashcode v)).getD v.valOf

/-- `reflect.Type.AssignableTo` restricted to the identical-type case
(the only case the replayed paths exercise for concrete types). -/
def assignableTo (a : Option GoType) (b : GoType) : Bool :=
  decide (a = some b)

/-- One step of the path replay for the non-function vertex kinds,
copied from the `switch` of `Func.reachTarget`:

* `rootVertex`: do nothing;
* `valueVertex`: remember the old value as last-seen; if the previous
  path vertex was a `typedOutputVertex`, inherit its value; if the
  resulting value is valid, record it under the vertex's name;
* `typedArgVertex`: if the last-seen value is valid and assignable, take
  it; record the value under the arg's type;
* `typedOutputVertex`: remember the value as last-seen and record it
  under the output's type. -/
def execSimpleVertex (prev : Option Vertex) (v : Vertex) (st : ExecSt) : ExecSt :=
  match v with
  | .root => st
  | .value n _ _ _ =>
      let cur := readVal st v
      let inherited :=
        match prev with
        | some (Vertex.typedOutput a b c d) => readVal st (Vertex.typedOutput a b c d)
        | _ => cur
      let vals' :=
        match prev with
        | some (Vertex.typedOutput _ _ _ _) => aset st.vals (hashcode v) inherited
        | _ => st.vals
      let named' :=
        if inherited.isValid then aset st.cs.namedValue n inherited
        else st.cs.namedValue
      { vals := vals'
        cs := { namedValue := named', typedValue := st.cs.typedValue, value := cur } }
  | .typedArg _ ty _ _ =>
      let take := st.cs.value.isValid && assignableTo st.cs.value.tyOf ty
      let newVal := if take then st.cs.value else readVal st v
      let vals' := if take then aset st.vals (hashcode v) newVal else st.vals
      { vals := vals'
        cs := { namedValue := st.cs.namedValue
                typedValue := aset st.cs.typedValue ty newVal
                value := st.cs.value } }
  | .typedOutput _ ty _ _ =>
      let cur := readVal st v
      { vals := st.vals
        cs := { namedValue := st.cs.namedValue
                typedValue := aset st.cs.typedValue ty cur
                value := cur } }
  | .func _ => st

/-- `Func.outputValues` (`func.go`): push each output of the converter's
Result onto the converter's in-edge vertices, by output name for
`valueVertex`es and by output type for `typedOutputVertex`es.  For the
lifted output sets that converters use, `output.result(r)` maps field
`i` to `r.out[i]`, so the struct-field read is `r.out.get? idx`.  A
missing output entry or index is a Go panic (`none`). -/
def outputValues (f : FuncM) (r : ResultM) : List Vertex → ExecSt → Option ExecSt
  | [], st => some st
  | w :: rest, st =>
      match w with
      | .value n _ _ _ =>
          match alookup f.namedOut n with
          | none => none
          | some idx =>
              match r.out.get? idx with
              | none => none
              | some rv =>
                  outputValues f r rest { st with vals := aset st.vals (hashcode w) rv }
      | .typedOutput _ ty _ _ =>
          match alookup f.typedOut ty with
          | none => none
          | some idx =>
              match r.out.get? idx with
              | none => none
              | some rv =>
                  outputValues f r rest { st with vals := aset st.vals (hashcode w) rv }
      | _ => outputValues f r rest st

/-- Work items of the executor: the path list of one `reachTarget`
invocation, a single path with its previous vertex, or one vertex. -/
inductive ExecTask : Type
  | paths (ps : List (List Vertex))
  | path (prev : Option Vertex) (p : List Vertex)
  | vertex (prev : Option Vertex) (v : Vertex)

/-- The path executor of `Func.reachTarget`.  `pathsFor` supplies, for a
function vertex's identity, the paths chosen for its pending
requirements — modelled from the spec, because the path-selection
helpers (`KahnSort`, `TopoShortestPath` wiring, `EdgeToPath`,
`TopoOrder.Until`) are not among the sources, only their call sites.
`funcs` resolves a function vertex's identity to its `Func`.  Fuel
decreases on every recursive call; a real run always has enough. -/
def execGo (pathsFor : VertexId → List (List Vertex)) (funcs : Nat → FuncM)
    (g : Graph) : Nat → ExecTask → ExecSt → Except ExecErr ExecSt
  | 0, _, _ => .error .outOfFuel
  | _ + 1, .paths [], st => .ok st
  | fuel + 1, .paths (p :: ps), st =>
      match execGo pathsFor funcs g fuel (.path none p) st with
      | .error e => .error e
      | .ok st' => execGo pathsFor funcs g fuel (.paths ps) st'
  | _ + 1, .path _ [], st => .ok st
  | fuel + 1, .path prev (v :: rest), st =>
      match execGo pathsFor funcs g fuel (.vertex prev v) st with
      | .error e => .error e
      | .ok st' => execGo pathsFor funcs g fuel (.path (some v) rest) st'
  | fuel + 1, .vertex _ (.func fid), st =>
      match execGo pathsFor funcs g fuel (.paths (pathsFor (hashcode (.func fid)))) st with
      | .error e => .error e
      | .ok st' =>
          match (callDirect (funcs fid) st'.cs).errOf with
          | some e => .error (.convErr e)
          | none =>
              match outputValues (funcs fid) (callDirect (funcs fid) st'.cs)
                  (g.inEdges (.func fid)) st' with
              | none => .error .panic
              | some st'' => .ok st''
  | _ + 1, .vertex prev .root, st => .ok (execSimpleVertex prev .root st)
  | _ + 1, .vertex prev (.value n ty sub pv), st =>
      .ok (execSimpleVertex prev (.value n ty sub pv) st)
  | _ + 1, .vertex prev (.typedArg n ty sub pv), st =>
      .ok (execSimpleVertex prev (.typedArg n ty sub pv) st)
  | _ + 1, .vertex prev (.typedOutput n ty sub pv), st =>
      .ok (execSimpleVertex prev (.typedOutput n ty sub pv) st)

/-- The tail of `Func.Call`: run `reachTarget` on the target's chosen
paths; a resolver error becomes `resultError(err)` and the target is
*not* invoked; on success the target is invoked via `callDirect`.
A panic (or exhausted fuel) has no Result at all (`none`). -/
def callWithPaths (pathsFor : VertexId → List (List Vertex)) (funcs : Nat → FuncM)
    (g : Graph) (target : FuncM) (paths : List (List Vertex)) (fuel : Nat)
    (st : ExecSt) : Option ResultM :=
  match execGo pathsFor funcs g fuel (.paths paths) st with
  | .ok st' => some (callDirect target st'.cs)
  | .error (.convErr e) => some (resultError e)
  | .error _ => none

theorem execGo_mono (pathsFor : VertexId → List (List Vertex)) (funcs : Nat → FuncM)
    (g : Graph) :
    ∀ (n : Nat) (t : ExecTask) (st : ExecSt) (r : Except ExecErr ExecSt),
      execGo pathsFor funcs g n t st = r → r ≠ .error .outOfFuel →
      ∀ m, n ≤ m → execGo pathsFor funcs g m t st = r := by
  intro n
  induction n with
  | zero =>
      intro t st r h hr m _
      rw [execGo] at h
      exact absurd h.symm hr
  | succ n ih =>
      intro t st r h hr m hm
      obtain ⟨m', rfl⟩ : ∃ m', m = m' + 1 := ⟨m - 1, by omega⟩
      have hm' : n ≤ m' := by omega
      cases t with
      | paths ps =>
          cases ps with
          | nil => rw [execGo] at h ⊢; exact h
          | cons p ps' =>
              rw [execGo] at h ⊢
              cases hi : execGo pathsFor funcs g n (.path none p) st with
              | error e =>
                  rw [hi] at h
                  have hre : r = .error e := h.symm
                  have he : (Except.error e : Except ExecErr ExecSt) ≠ .error .outOfFuel :=
                    fun hh => hr (hre.trans hh)
                  rw [ih _ _ _ hi he m' hm']
                  exact hre.symm
              | ok st1 =>
                  rw [hi] at h
                  rw [ih _ _ _ hi (by simp) m' hm']
                  exact ih _ _ _ h hr m' hm'
      | path prev p =>
          cases p with
          | nil => rw [execGo] at h ⊢; exact h
          | cons v rest =>
              rw [execGo] at h ⊢
              cases hi : execGo pathsFor funcs g n (.vertex prev v) st with
              | error e =>
                  rw [hi] at h
                  have hre : r = .error e := h.symm
                  have he : (Except.error e : Except ExecErr ExecSt) ≠ .error .outOfFuel :=
                    fun hh => hr (hre.trans hh)
                  rw [ih _ _ _ hi he m' hm']
                  exact hre.symm
              | ok st1 =>
                  rw [hi] at h
                  rw [ih _ _ _ hi (by simp) m' hm']
                  exact ih _ _ _ h hr m' hm'
      | vertex prev v =>
          cases v with
          | root => rw [execGo] at h ⊢; exact h
          | value n' ty sub pv => rw [execGo] at h ⊢; exact h
          | typedArg n' ty sub pv => rw [execGo] at h ⊢; exact h
          | typedOutput n' ty sub pv => rw [execGo] at h ⊢; exact h
          | func fid =>
              rw [execGo] at h ⊢
              cases hi : execGo pathsFor funcs g n
                  (.paths (pathsFor (hashcode (.func fid)))) st with
              | error e =>
                  rw [hi] at h
                  have hre : r = .error e := h.symm
                  have he : (Except.error e : Except ExecErr ExecSt) ≠ .error .outOfFuel :=
                    fun hh => hr (hre.trans hh)
                  rw [ih _ _ _ hi he m' hm']
                  exact hre.symm
              | ok st1 =>
                  rw [hi] at h
                  rw [ih _ _ _ hi (by simp) m' hm']
                  exact h

/-- The previous-vertex marker after a path prefix has been replayed. -/
def lastPrev (prev : Option Vertex) : List Vertex → Option Vertex
  | [] => prev
  | x :: rest => lastPrev (some x) rest

theorem lastPrev_cons (prev : Option Vertex) (x : Vertex) (pre : List Vertex) :
    lastPrev prev (x :: pre) = lastPrev (some x) pre := rfl

theorem execGo_paths_append (pathsFor : VertexId → List (List Vertex))
    (funcs : Nat → FuncM) (g : Graph) :
    ∀ (d : List (List Vertex)) (n0 : Nat) (st0 st : ExecSt),
      execGo pathsFor funcs g n0 (.paths d) st0 = .ok st →
      ∀ (ps : List (List Vertex)) (n1 : Nat) (r : Except ExecErr ExecSt),
        execGo pathsFor funcs g n1 (.paths ps) st = r → r ≠ .error .outOfFuel →
        ∀ m, n0 + n1 ≤ m →
          execGo pathsFor funcs g m (.paths (d ++ ps)) st0 = r := by
  intro d
  induction d with
  | nil =>
      intro n0 st0 st h ps n1 r h1 hr m hm
      cases n0 with
      | zero =>
          rw [execGo] at h
          exact absurd h (by simp)
      | succ k =>
          rw [execGo] at h
          have hst : st0 = st := by
            have := h
            simpa using this
          subst hst
          exact execGo_mono pathsFor funcs g n1 _ _ _ h1 hr m (by omega)
  | cons p d' ih =>
      intro n0 st0 st h ps n1 r h1 hr m hm
      cases n0 with
      | zero =>
          rw [execGo] at h
          exact absurd h (by simp)
      | succ k =>
          rw [execGo] at h
          cases hi : execGo pathsFor funcs g k (.path none p) st0 with
          | error e =>
              rw [hi] at h
              exact absurd h (by simp)
          | ok st1 =>
              rw [hi] at h
              obtain ⟨m', rfl⟩ : ∃ m', m = m' + 1 := ⟨m - 1, by omega⟩
              rw [List.cons_append, execGo]
              rw [execGo_mono pathsFor funcs g k _ _ _ hi (by simp) m' (by omega)]
              exact ih k st1 st h ps n1 r h1 hr m' (by omega)

theorem execGo_path_append (pathsFor : VertexId → List (List Vertex))
    (funcs : Nat → FuncM) (g : Graph) :
    ∀ (pre : List Vertex) (n0 : Nat) (prev : Option Vertex) (st0 st : ExecSt),
      execGo pathsFor funcs g n0 (.path prev pre) st0 = .ok st →
      ∀ (suf : List Vertex) (n1 : Nat) (r : Except ExecErr ExecSt),
        execGo pathsFor funcs g n1 (.path (lastPrev prev pre) suf) st = r →
        r ≠ .error .outOfFuel →
        ∀ m, n0 + n1 ≤ m →
          execGo pathsFor funcs g m (.path prev (pre ++ suf)) st0 = r := by
  intro pre
  induction pre with
  | nil =>
      intro n0 prev st0 st h suf n1 r h1 hr m hm
      cases n0 with
      | zero =>
          rw [execGo] at h
          exact absurd h (by simp)
      | succ k =>
          rw [execGo] at h
          have hst : st0 = st := by simpa using h
          subst hst
          exact execGo_mono pathsFor funcs g n1 _ _ _ h1 hr m (by omega)
  | cons x pre' ih =>
      intro n0 prev st0 st h suf n1 r h1 hr m hm
      cases n0 with
      | zero =>
          rw [execGo] at h
          exact absurd h (by simp)
      | succ k =>
          rw [execGo] at h
          cases hi : execGo pathsFor funcs g k (.vertex prev x) st0 with
          | error e =>
              rw [hi] at h
              exact absurd h (by simp)
          | ok st1 =>
              rw [hi] at h
              obtain ⟨m', rfl⟩ : ∃ m', m = m' + 1 := ⟨m - 1, by omega⟩
              rw [List.cons_append, execGo]
              rw [execGo_mono pathsFor funcs g k _ _ _ hi (by simp) m' (by omega)]
              rw [lastPrev_cons] at h1
              exact ih k (some x) st1 st h suf n1 r h1 hr m' (by omega)

/-- C8.  If, while replaying the chosen resolution paths, execution
reaches a converter (`funcVertex`) anywhere along one of the paths and
that converter's `callDirect` Result carries a non-nil error `e`, then
the whole call returns `resultError e` — whatever the target function
is, so the target is never invoked. -/
theorem converter_error_aborts_call (pathsFor : VertexId → List (List Vertex))
    (funcs : Nat → FuncM) (g : Graph) (done : List (List Vertex))
    (pre rest : List Vertex) (ps : List (List Vertex)) (cid : Nat)
    (st0 st1 st2 st3 : ExecSt) (e : GoErr) (n0 n1 n2 : Nat)
    (h0 : execGo pathsFor funcs g n0 (.paths done) st0 = .ok st1)
    (hpre : execGo pathsFor funcs g n1 (.path none pre) st1 = .ok st2)
    (hargs : execGo pathsFor funcs g n2
      (.paths (pathsFor (hashcode (.func cid)))) st2 = .ok st3)
    (herr : (callDirect (funcs cid) st3.cs).errOf = some e) :
    ∀ m, n0 + n1 + n2 + 3 ≤ m → ∀ target : FuncM,
      callWithPaths pathsFor funcs g target
          (done ++ (pre ++ Vertex.func cid :: rest) :: ps) m st0 =
        some (resultError e) := by
  intro m hm target
  have hA : execGo pathsFor funcs g (n2 + 1)
      (.vertex (lastPrev none pre) (.func cid)) st2 = .error (.convErr e) := by
    rw [execGo, hargs]
    simp only [herr]
  have hB : execGo pathsFor funcs g (n2 + 2)
      (.path (lastPrev none pre) (Vertex.func cid :: rest)) st2 =
      .error (.convErr e) := by
    rw [execGo, hA]
  have hC : execGo pathsFor funcs g (n1 + n2 + 2)
      (.path none (pre ++ Vertex.func cid :: rest)) st1 = .error (.convErr e) :=
    execGo_path_append pathsFor funcs g pre n1 none st1 st2 hpre
      (Vertex.func cid :: rest) (n2 + 2) _ hB (by simp) (n1 + n2 + 2) (by omega)
  have hD : execGo pathsFor funcs g (n1 + n2 + 3)
      (.paths ((pre ++ Vertex.func cid :: rest) :: ps)) st1 =
      .error (.convErr e) := by
    rw [execGo, hC]
  have hE : execGo pathsFor funcs g m
      (.paths (done ++ (pre ++ Vertex.func cid :: rest) :: ps)) st0 =
      .error (.convErr e) :=
    execGo_paths_append pathsFor funcs g done n0 st0 st1 h0
      ((pre ++ Vertex.func cid :: rest) :: ps) (n1 + n2 + 3) _ hD (by simp)
      m (by omega)
  unfold callWithPaths
  rw [hE]

/-- The always-failing converter of scenario S4: no inputs, one output
of type `error` holding the error `"failed"`. -/
def failConv : FuncM :=
  { input := { namedFields := [], typedFields := [] }
    namedOut := []
    typedOut := []
    fn := fun _ => [RVal.errV (some ["failed"])] }

/-- The initial executor state of a call. -/
def initExecSt : ExecSt := ⟨[], emptyCallState⟩

/-- C8 (witness): a call whose single chosen path runs through the
failing converter returns `resultError ["failed"]`, for an arbitrary
target (here the converter itself reused as target — the result does
not depend on it). -/
theorem converter_error_aborts_call_witness :
    (callDirect ((fun _ => failConv) 0) initExecSt.cs).errOf = some ["failed"] ∧
      callWithPaths (fun _ => []) (fun _ => failConv) Graph.empty failConv
          [[Vertex.func 0]] 7 initExecSt =
        some (resultError ["failed"]) :=
  ⟨rfl,
    converter_error_aborts_call (fun _ => []) (fun _ => failConv) Graph.empty
      [] [] [] [] 0 initExecSt initExecSt initExecSt initExecSt ["failed"] 1 1 1
      rfl rfl rfl rfl 7 (by omega) failConv⟩

end ArgMapper
